import Mathlib

/-!
Verification development for the git-stats repository.

The embedding models, over `List Char` and plain `Nat`:
  * the `co-authors` crate trailer parser (src/co-authors/src/lib.rs),
    written there with nom combinators over `&str`;
  * the string interner (src/src/stringcache.rs);
  * the pairing aggregator (src/src/author_counts.rs), whose `u32` counts
    are modelled as `Nat` reduced modulo `2^32` at every increment, the
    wrapping addition of release builds (debug builds panic instead);
  * the name normalizer and navigator extraction (src/src/repo.rs).
-/

namespace GitStats

/-! ### Parser embedding (src/co-authors/src/lib.rs)

nom's `IResult` is modelled as `Except` carrying the error kind that the
failing combinator reports: `tag`/`tag_no_case` report `Tag`, `take_until`
reports `TakeUntil`, `verify` reports `Verify`, `is_not` reports `IsNot`.
`many1` with nom's plain error type propagates the inner error unchanged. -/

inductive NomKind : Type where
  | tag
  | takeUntil
  | verify
  | isNot
deriving DecidableEq, Repr

abbrev PResult (α : Type) := Except NomKind (List Char × α)

instance {ε α : Type} [DecidableEq ε] [DecidableEq α] : DecidableEq (Except ε α) :=
  fun x y =>
    match x, y with
    | .ok a, .ok b =>
      match decEq a b with
      | isTrue h => isTrue (by rw [h])
      | isFalse h => isFalse (by intro hc; injection hc; contradiction)
    | .ok _, .error _ => isFalse (fun hc => Except.noConfusion hc)
    | .error _, .ok _ => isFalse (fun hc => Except.noConfusion hc)
    | .error e, .error f =>
      match decEq e f with
      | isTrue h => isTrue (by rw [h])
      | isFalse h => isFalse (by intro hc; injection hc; contradiction)

def pok {α : Type} : PResult α → Bool
  | .ok _ => true
  | .error _ => false

/-- nom `space0`: horizontal whitespace, space and tab. -/
def isHws (c : Char) : Bool := c = ' ' || c = '\t'

def space0 (i : List Char) : List Char := i.dropWhile isHws

def keyChars : List Char := "co-authored-by:".data

/-- nom `tag_no_case` (first argument is the tag): case-insensitive match. -/
def tagNoCase : List Char → List Char → PResult Unit
  | [], i => .ok (i, ())
  | _ :: _, [] => .error .tag
  | c :: t, d :: i =>
    if c.toLower = d.toLower then tagNoCase t i else .error .tag

/-- One iteration of `delimited(space0, tag_no_case("co-authored-by:"), space0)`. -/
def co_authored_by_once (i : List Char) : PResult Unit :=
  match tagNoCase keyChars (space0 i) with
  | .ok (r, _) => .ok (space0 r, ())
  | .error k => .error k

/-- The greedy tail of nom `many1`, fuelled; each successful iteration
consumes at least the key, so `i.length` fuel is always enough. -/
def keyLoop : Nat → List Char → List Char
  | 0, i => i
  | fuel + 1, i =>
    match co_authored_by_once i with
    | .ok (r, _) => keyLoop fuel r
    | .error _ => i

/-- `co_authored_by`: `many1(delimited(space0, tag_no_case(key), space0))`. -/
def co_authored_by (i : List Char) : PResult Unit :=
  match co_authored_by_once i with
  | .ok (r, _) => .ok (keyLoop r.length r, ())
  | .error k => .error k

/-- Rust `char::is_whitespace` (the Unicode White_Space property). -/
def rustIsWhitespace (c : Char) : Bool :=
  let n := c.toNat
  (9 ≤ n && n ≤ 13) || n = 32 || n = 133 || n = 160 || n = 0x1680 ||
    (0x2000 ≤ n && n ≤ 0x200A) || n = 0x2028 || n = 0x2029 || n = 0x202F ||
    n = 0x205F || n = 0x3000

/-- Rust `str::trim`. -/
def trimChars (l : List Char) : List Char :=
  ((l.dropWhile rustIsWhitespace).reverse.dropWhile rustIsWhitespace).reverse

/-- nom `take_until("<")`: everything before the first `<`; fails with
`TakeUntil` when there is no `<` at all. -/
def takeUntilLt (i : List Char) : PResult (List Char) :=
  if ('<') ∈ i then
    .ok (i.dropWhile (fun c => c ≠ '<'), i.takeWhile (fun c => c ≠ '<'))
  else .error .takeUntil

/-- `co_author_name`: `preceded(co_authored_by, verify(map(take_until("<"), trim), nonempty))`. -/
def co_author_name (i : List Char) : PResult (List Char) :=
  match co_authored_by i with
  | .error k => .error k
  | .ok (r, _) =>
    match takeUntilLt r with
    | .error k => .error k
    | .ok (r2, raw) =>
      if (trimChars raw).isEmpty then .error .verify else .ok (r2, trimChars raw)

def ptagLt : List Char → PResult Unit
  | '<' :: r => .ok (r, ())
  | _ => .error .tag

def ptagGt : List Char → PResult Unit
  | '>' :: r => .ok (r, ())
  | _ => .error .tag

def isNotMailChar (c : Char) : Bool := c = '>' || c = ' ' || c = '\t'

/-- nom `is_not("> \t")`: one or more characters outside the set. -/
def isNotSet (i : List Char) : PResult (List Char) :=
  let taken := i.takeWhile (fun c => !isNotMailChar c)
  if taken.isEmpty then .error .isNot else .ok (i.drop taken.length, taken)

/-- `delimited(tag("<"), is_not("> \t"), tag(">"))`. -/
def co_author_mail_core (i : List Char) : PResult (List Char) :=
  match ptagLt i with
  | .error k => .error k
  | .ok (r, _) =>
    match isNotSet r with
    | .error k => .error k
    | .ok (r2, m) =>
      match ptagGt r2 with
      | .error k => .error k
      | .ok (r3, _) => .ok (r3, m)

/-- `co_author_mail`: the mail section wrapped in `opt`, so it never fails. -/
def co_author_mail (i : List Char) : PResult (Option (List Char)) :=
  match co_author_mail_core i with
  | .ok (r, m) => .ok (r, some m)
  | .error _ => .ok (i, none)

/-- `co_author`: name then optional mail. -/
def co_author (i : List Char) : PResult (List Char × Option (List Char)) :=
  match co_author_name i with
  | .error k => .error k
  | .ok (r, nm) =>
    match co_author_mail r with
    | .error k => .error k
    | .ok (r2, ml) => .ok (r2, (nm, ml))

structure CoAuthor : Type where
  name : String
  mail : Option String
deriving DecidableEq, Repr

inductive CoAuthorError : Type where
  | MissingTrailerKey
  | MissingName
  | MissingMail
deriving DecidableEq, Repr

/-- Outcome of `CoAuthor::try_from`; `crash` is the `unreachable!` branch. -/
inductive TryFromResult : Type where
  | ok (c : CoAuthor)
  | err (e : CoAuthorError)
  | crash
deriving DecidableEq, Repr

/-- The error-kind match in `CoAuthor::try_from`. -/
def tryFromOfResult (r : PResult (List Char × Option (List Char))) : TryFromResult :=
  match r with
  | .ok (_, (nm, ml)) => .ok ⟨⟨nm⟩, ml.map (fun m => ⟨m⟩)⟩
  | .error .tag => .err .MissingTrailerKey
  | .error .takeUntil => .err .MissingMail
  | .error .verify => .err .MissingName
  | .error .isNot => .crash

def CoAuthor.tryFrom (line : String) : TryFromResult :=
  tryFromOfResult (co_author line.data)

/-- `get_co_author`: `co_author(line).ok()` mapped into the struct. -/
def get_co_author (line : String) : Option CoAuthor :=
  match co_author line.data with
  | .ok (_, (nm, ml)) => some ⟨⟨nm⟩, ml.map (fun m => ⟨m⟩)⟩
  | .error _ => none

/-! ### String interner (src/src/stringcache.rs)

The `IndexSet` is modelled by its insertion-ordered list of strings:
`get_index_of` is the position of the first equal element, `insert_full`
appends and returns the old length, `get_index` is positional lookup. -/

structure StringCache : Type where
  strings : List String
deriving DecidableEq, Repr

def StringCache.empty : StringCache := ⟨[]⟩

/-- `IndexSet::get_index_of`: position of the first occurrence of `s`. -/
def cacheIdx (s : String) : List String → Option Nat
  | [] => none
  | t :: ts => if t = s then some 0 else (cacheIdx s ts).map (fun n => n + 1)

def StringCache.intern (c : StringCache) (s : String) : Nat × StringCache :=
  match cacheIdx s c.strings with
  | some i => (i, c)
  | none => (c.strings.length, ⟨c.strings ++ [s]⟩)

/-- `StringCache::get` (the `Index` impl panics exactly when this is `none`). -/
def StringCache.resolve (c : StringCache) (i : Nat) : Option String :=
  c.strings[i]?

/-! ### Pairing aggregator (src/src/author_counts.rs)

`FxHashMap` with `entry(..).or_default()` is modelled as a total function
with default-zero entries. The `u32` counts are `Nat` taken modulo `2^32`
at every `+= 1`, the wrapping addition of release builds (a debug build
panics at `u32::MAX` instead of wrapping). -/

structure PairedWith : Type where
  as_driver : Nat
  total : Nat
deriving DecidableEq, Repr

def PairedWith.zero : PairedWith := ⟨0, 0⟩

/-- `PairedWith::inc_driver`: both `u32` fields take `+= 1`, wrapping. -/
def PairedWith.inc_driver (p : PairedWith) : PairedWith :=
  ⟨(p.as_driver + 1) % 2^32, (p.total + 1) % 2^32⟩

/-- `PairedWith::inc_navigator`: only `total` takes `+= 1`, wrapping. -/
def PairedWith.inc_navigator (p : PairedWith) : PairedWith :=
  ⟨p.as_driver, (p.total + 1) % 2^32⟩

/-- `counts a b` is author `a`'s `PairingCounts` entry for co-author `b`. -/
abbrev AuthorCounts : Type := Nat → Nat → PairedWith

def AuthorCounts.empty : AuthorCounts := fun _ _ => PairedWith.zero

def AuthorCounts.add_pair (c : AuthorCounts) (driver navigator : Nat) : AuthorCounts :=
  if driver = navigator then c
  else fun a b =>
    if a = driver ∧ b = navigator then (c a b).inc_driver
    else if a = navigator ∧ b = driver then (c a b).inc_navigator
    else c a b

/-- States reachable from the empty aggregate by a sequence of `add_pair`. -/
def AuthorCounts.applyPairs (ps : List (Nat × Nat)) : AuthorCounts :=
  ps.foldl (fun c p => c.add_pair p.1 p.2) AuthorCounts.empty

/-! ### Name normalization and navigators (src/src/repo.rs) -/

def HAN_SOLO : String := "Han Solo"

/-- The fixed diacritic-folding table of `Replacements::replace_umlauts`. -/
def umlautFold (c : Char) : Option String :=
  if c = 'Ä' then some "Ae"
  else if c = 'ä' then some "ae"
  else if c = 'Ö' then some "Oe"
  else if c = 'ö' then some "oe"
  else if c = 'Ü' then some "Ue"
  else if c = 'ü' then some "ue"
  else if c = 'ß' then some "ss"
  else none

def foldChars (l : List Char) : List Char :=
  l.foldr
    (fun c acc => (match umlautFold c with | some r => r.data | none => [c]) ++ acc) []

/-- `Replacements::replace_umlauts`: scan for a foldable character, and only
then rebuild the string; otherwise return the input unchanged. -/
def replace_umlauts (s : String) : String :=
  if s.data.any (fun c => (umlautFold c).isSome) then ⟨foldChars s.data⟩ else s

/-- `Replacements::normalize_author_name`: first exact-match rule, then the
diacritic fold. -/
def normalize_author_name (rules : List (String × String)) (name : String) : String :=
  let replaced :=
    ((rules.filterMap (fun ft => if name = ft.1 then some ft.2 else none)).head?).getD
      name
  replace_umlauts replaced

/-- Segments of `str::lines` before the trailing-empty / `\r` fixups. -/
def splitNl : List Char → List (List Char)
  | [] => [[]]
  | c :: rest =>
    if c = '\n' then [] :: splitNl rest
    else
      match splitNl rest with
      | [] => [[c]]
      | l :: ls => (c :: l) :: ls

def stripCr (l : List Char) : List Char :=
  match l.reverse with
  | '\r' :: r => r.reverse
  | _ => l

/-- Rust `str::lines`: split on `\n`, no trailing empty line, strip `\r`. -/
def rustLines (s : List Char) : List (List Char) :=
  let segs := splitNl s
  let segs := if segs.getLast? = some [] then segs.dropLast else segs
  segs.map stripCr

/-- `Repo::get_navigators`: parsed co-author names of all lines, padded with
the solo sentinel to length one (`pad_using(1, |_| HAN_SOLO)`). -/
def get_navigators (msg : String) : List String :=
  let navs :=
    (rustLines msg.data).filterMap (fun l => (get_co_author ⟨l⟩).map CoAuthor.name)
  if navs = [] then [HAN_SOLO] else navs

/-- `Repo::author_id`: normalize, then intern. -/
def author_id (rules : List (String × String)) (cache : StringCache) (name : String) :
    Nat × StringCache :=
  cache.intern (normalize_author_name rules name)

/-- `Repo::try_find_and_add_navigators`: intern the commit author, then
record one `add_pair` per navigator produced by `get_navigators`. -/
def process_commit (rules : List (String × String)) (cache : StringCache)
    (counts : AuthorCounts) (authorName msg : String) : StringCache × AuthorCounts :=
  let a := author_id rules cache authorName
  (get_navigators msg).foldl
    (fun st nav =>
      let n := author_id rules st.1 nav
      (n.2, st.2.add_pair a.1 n.1))
    (a.2, counts)

/-! ### Helper lemmas: aggregator

As long as every entry's `total` stays below the current call-count bound
`k` and `k + 1 < 2^32`, the wrapping `% 2^32` never bites, so the ordering
invariant survives one `add_pair`; past `2^32` calls it can wrap. -/

theorem add_pair_inv_bounded {c : AuthorCounts} {k : Nat}
    (h : ∀ x y, (c x y).as_driver ≤ (c x y).total ∧ (c x y).total ≤ k)
    (hk : k + 1 < 2^32) (d n : Nat) :
    ∀ x y, (c.add_pair d n x y).as_driver ≤ (c.add_pair d n x y).total ∧
      (c.add_pair d n x y).total ≤ k + 1 := by
  intro x y
  unfold AuthorCounts.add_pair
  split
  · exact ⟨(h x y).1, Nat.le_succ_of_le (h x y).2⟩
  · dsimp only
    split
    · simp only [PairedWith.inc_driver]
      obtain ⟨h1, h2⟩ := h x y
      have ht : (c x y).total + 1 < 2^32 := by omega
      have ha : (c x y).as_driver + 1 < 2^32 := by omega
      rw [Nat.mod_eq_of_lt ht, Nat.mod_eq_of_lt ha]
      exact ⟨Nat.succ_le_succ h1, by omega⟩
    · split
      · simp only [PairedWith.inc_navigator]
        obtain ⟨h1, h2⟩ := h x y
        have ht : (c x y).total + 1 < 2^32 := by omega
        rw [Nat.mod_eq_of_lt ht]
        exact ⟨Nat.le_succ_of_le h1, by omega⟩
      · exact ⟨(h x y).1, Nat.le_succ_of_le (h x y).2⟩

theorem foldl_add_pair_inv_bounded : ∀ (ps : List (Nat × Nat)) (c : AuthorCounts)
    (k : Nat), (∀ x y, (c x y).as_driver ≤ (c x y).total ∧ (c x y).total ≤ k) →
    k + ps.length < 2^32 →
    ∀ x y, ((ps.foldl (fun c p => c.add_pair p.1 p.2) c) x y).as_driver ≤
      ((ps.foldl (fun c p => c.add_pair p.1 p.2) c) x y).total := by
  intro ps
  induction ps with
  | nil => intro c k h hk x y; exact (h x y).1
  | cons p ps ih =>
    intro c k h hk x y
    rw [List.foldl_cons]
    have hk2 : k + 1 < 2^32 := by
      simp only [List.length_cons] at hk
      omega
    exact ih (c.add_pair p.1 p.2) (k + 1) (add_pair_inv_bounded h hk2 p.1 p.2)
      (by simp only [List.length_cons] at hk; omega) x y

/-- One `add_pair(1, 0)` applies exactly `inc_navigator` to the `(0, 1)`
entry: `total` takes a wrapping `+= 1` and `as_driver` is untouched. -/
theorem add_pair_10_entry (c : AuthorCounts) :
    c.add_pair 1 0 0 1 = ⟨(c 0 1).as_driver, ((c 0 1).total + 1) % 2^32⟩ := by
  unfold AuthorCounts.add_pair
  rw [if_neg (by decide), if_neg (by decide), if_pos ⟨rfl, rfl⟩]
  rfl

/-- Folding `n` copies of `add_pair(1, 0)` adds `n` to the `(0, 1)` entry's
`total`, modulo `2^32`, and leaves its `as_driver` alone. -/
theorem foldl_replicate_nav : ∀ (n : Nat) (c : AuthorCounts),
    (c 0 1).total < 2^32 →
    ((List.replicate n ((1 : Nat), (0 : Nat))).foldl
        (fun c p => c.add_pair p.1 p.2) c) 0 1 =
      ⟨(c 0 1).as_driver, ((c 0 1).total + n) % 2^32⟩ := by
  intro n
  induction n with
  | zero =>
    intro c hc
    simp only [List.replicate, List.foldl_nil]
    rw [Nat.add_zero, Nat.mod_eq_of_lt hc]
  | succ n ih =>
    intro c hc
    rw [List.replicate_succ, List.foldl_cons]
    show ((List.replicate n ((1 : Nat), (0 : Nat))).foldl
        (fun c p => c.add_pair p.1 p.2) (c.add_pair 1 0)) 0 1 = _
    have he := add_pair_10_entry c
    have hlt : (c.add_pair 1 0 0 1).total < 2^32 := by
      rw [he]
      exact Nat.mod_lt _ (by decide)
    rw [ih (c.add_pair 1 0) hlt, he]
    simp only [PairedWith.mk.injEq, true_and]
    rw [Nat.mod_add_mod]
    exact congrArg (fun x => x % 2^32) (by omega)

/-! ### Helper lemmas: interner -/

theorem cacheIdx_lt_length {s : String} :
    ∀ {l : List String} {i : Nat}, cacheIdx s l = some i → i < l.length := by
  intro l
  induction l with
  | nil => intro i h; exact Option.noConfusion h
  | cons t ts ih =>
    intro i h
    simp only [cacheIdx] at h
    split at h
    · cases h; simp
    · match hi : cacheIdx s ts with
      | none => rw [hi] at h; exact Option.noConfusion h
      | some j =>
        rw [hi] at h
        simp only [Option.map_some'] at h
        cases h
        exact Nat.succ_lt_succ (ih hi)

theorem cacheIdx_getElem {s : String} :
    ∀ {l : List String} {i : Nat}, cacheIdx s l = some i → l[i]? = some s := by
  intro l
  induction l with
  | nil => intro i h; exact Option.noConfusion h
  | cons t ts ih =>
    intro i h
    simp only [cacheIdx] at h
    split at h
    · cases h
      simp only [List.getElem?_cons_zero, Option.some.injEq]
      assumption
    · match hi : cacheIdx s ts with
      | none => rw [hi] at h; exact Option.noConfusion h
      | some j =>
        rw [hi] at h
        simp only [Option.map_some'] at h
        cases h
        simpa using ih hi

theorem cacheIdx_append_self {s : String} :
    ∀ {l : List String}, cacheIdx s l = none → cacheIdx s (l ++ [s]) = some l.length := by
  intro l
  induction l with
  | nil => intro _; simp [cacheIdx]
  | cons t ts ih =>
    intro h
    simp only [cacheIdx] at h
    by_cases ht : t = s
    · rw [if_pos ht] at h
      exact Option.noConfusion h
    · rw [if_neg ht] at h
      have h2 : cacheIdx s ts = none := by
        match hi : cacheIdx s ts with
        | none => rfl
        | some j => rw [hi] at h; exact Option.noConfusion h
      simp only [List.cons_append, cacheIdx, if_neg ht, List.append_eq, ih h2, Option.map_some',
        List.length_cons]

/-- After `intern`, the returned id resolves to the interned string. -/
theorem intern_resolve (c : StringCache) (s : String) :
    (c.intern s).2.resolve (c.intern s).1 = some s := by
  unfold StringCache.intern StringCache.resolve
  match h : cacheIdx s c.strings with
  | some i => simpa using cacheIdx_getElem h
  | none => simp

/-- `intern` either finds an existing id and leaves the cache unchanged, or
issues the next sequential id and appends the string. -/
theorem intern_cases (c : StringCache) (s : String) :
    ((c.intern s).1 < c.strings.length ∧ (c.intern s).2 = c) ∨
      ((c.intern s).1 = c.strings.length ∧ (c.intern s).2.strings = c.strings ++ [s]) := by
  unfold StringCache.intern
  match h : cacheIdx s c.strings with
  | some i => exact Or.inl ⟨cacheIdx_lt_length h, rfl⟩
  | none => exact Or.inr ⟨rfl, rfl⟩

/-- Previously issued ids resolve unchanged after any further `intern`. -/
theorem intern_stable (c : StringCache) (s : String) {j : Nat}
    (hj : j < c.strings.length) : (c.intern s).2.resolve j = c.resolve j := by
  rcases intern_cases c s with ⟨_, h⟩ | ⟨_, h⟩
  · rw [h]
  · unfold StringCache.resolve
    rw [h]
    exact List.getElem?_append_left hj

/-- Issued ids resolve exactly when they are below the cache size. -/
theorem resolve_isSome (c : StringCache) (i : Nat) :
    (c.resolve i).isSome ↔ i < c.strings.length := by
  unfold StringCache.resolve
  constructor
  · intro h
    by_contra hn
    rw [List.getElem?_eq_none (by omega)] at h
    exact Bool.noConfusion h
  · intro h
    rw [List.getElem?_eq_getElem h]
    rfl

/-- C2, counterexample: at a `u32` state whose driver entry already holds
`2^32 - 1`, `add_pair` wraps `as_driver` to `0` instead of incrementing it
by exactly 1, refuting the claim as stated over every state. -/
theorem add_pair_overflow_counterexample :
    ((0 : Nat) ≠ 1) ∧
    (AuthorCounts.add_pair (fun _ _ => ⟨2^32 - 1, 2^32 - 1⟩) 0 1 0 1).as_driver
        = 0 ∧
    ¬ ((AuthorCounts.add_pair (fun _ _ => ⟨2^32 - 1, 2^32 - 1⟩) 0 1 0
          1).as_driver =
        ((fun _ _ => (⟨2^32 - 1, 2^32 - 1⟩ : PairedWith) : AuthorCounts) 0
              1).as_driver + 1) := by
  refine ⟨by decide, by decide, by decide⟩

/-- C2, amended: `add_pair` is a no-op on `driver == navigator`; otherwise
the driver-to-navigator edge takes a wrapping `u32` `+= 1` on both
`as_driver` and `total` (that is, `+ 1` modulo `2^32`), the
navigator-to-driver edge takes the wrapping `+= 1` on `total` only, and
every other entry of every author is unchanged (absent entries act as zero
counts). -/
theorem add_pair_spec : ∀ (c : AuthorCounts) (d n : Nat),
    (d = n → c.add_pair d n = c) ∧
    (d ≠ n →
      (c.add_pair d n d n).as_driver = ((c d n).as_driver + 1) % 2^32 ∧
      (c.add_pair d n d n).total = ((c d n).total + 1) % 2^32 ∧
      (c.add_pair d n n d).total = ((c n d).total + 1) % 2^32 ∧
      (c.add_pair d n n d).as_driver = (c n d).as_driver ∧
      (∀ a b, ¬(a = d ∧ b = n) → ¬(a = n ∧ b = d) → c.add_pair d n a b = c a b)) := by
  intro c d n
  constructor
  · intro h
    unfold AuthorCounts.add_pair
    rw [if_pos h]
  · intro h
    have hnd : ¬(n = d ∧ d = n) := fun hc => h hc.2
    unfold AuthorCounts.add_pair
    rw [if_neg h]
    refine ⟨?_, ?_, ?_, ?_, ?_⟩
    · rw [if_pos ⟨rfl, rfl⟩]
      rfl
    · rw [if_pos ⟨rfl, rfl⟩]
      rfl
    · rw [if_neg hnd, if_pos ⟨rfl, rfl⟩]
      rfl
    · rw [if_neg hnd, if_pos ⟨rfl, rfl⟩]
      rfl
    · intro a b h1 h2
      rw [if_neg h1, if_neg h2]

theorem add_pair_spec_witness :
    ((0 : Nat) = 0 ∧ AuthorCounts.empty.add_pair 0 0 = AuthorCounts.empty) ∧
    ((0 : Nat) ≠ 1 ∧
      (AuthorCounts.empty.add_pair 0 1 0 1).as_driver = 1 ∧
      (AuthorCounts.empty.add_pair 0 1 0 1).total = 1 ∧
      (AuthorCounts.empty.add_pair 0 1 1 0).total = 1 ∧
      (AuthorCounts.empty.add_pair 0 1 1 0).as_driver = 0 ∧
      AuthorCounts.empty.add_pair 0 1 2 3 = AuthorCounts.empty 2 3) := by
  have h1 := (add_pair_spec AuthorCounts.empty 0 0).1 rfl
  have h2 := (add_pair_spec AuthorCounts.empty 0 1).2 (by decide)
  exact ⟨⟨rfl, h1⟩, by decide, h2.1.trans (by decide), h2.2.1.trans (by decide),
    h2.2.2.1.trans (by decide), h2.2.2.2.1.trans (by decide),
    h2.2.2.2.2 2 3 (by decide) (by decide)⟩

/-- C3: interning the same string twice returns the same id both times, and
the id returned by `intern` resolves back to the interned string. -/
theorem intern_idempotent_resolve : ∀ (c : StringCache) (s : String),
    ((c.intern s).2.intern s).1 = (c.intern s).1 ∧
    (c.intern s).2.resolve (c.intern s).1 = some s := by
  intro c s
  constructor
  · cases h : cacheIdx s c.strings with
    | some i => simp [StringCache.intern, h]
    | none => simp [StringCache.intern, h, cacheIdx_append_self h]
  · exact intern_resolve c s

/-- C4: ids are issued densely and sequentially in first-seen order (an
`intern` either returns an existing id below the current size and leaves the
cache unchanged, or returns exactly the next id and appends), issued ids are
never reassigned by later interning, an id resolves exactly when it has been
issued, and interning two distinct strings yields two distinct ids. -/
theorem intern_dense_stable_injective :
    (∀ (c : StringCache) (s : String),
        ((c.intern s).1 < c.strings.length ∧ (c.intern s).2 = c) ∨
          ((c.intern s).1 = c.strings.length ∧
            (c.intern s).2.strings = c.strings ++ [s])) ∧
    (∀ (c : StringCache) (s : String) (j : Nat), j < c.strings.length →
        (c.intern s).2.resolve j = c.resolve j) ∧
    (∀ (c : StringCache) (i : Nat), (c.resolve i).isSome ↔ i < c.strings.length) ∧
    (∀ (c : StringCache) (s₁ s₂ : String), s₁ ≠ s₂ →
        ((c.intern s₁).2.intern s₂).1 ≠ (c.intern s₁).1) := by
  refine ⟨intern_cases, fun c s j hj => intern_stable c s hj, resolve_isSome, ?_⟩
  intro c s₁ s₂ hne heq
  have h1 : (c.intern s₁).2.resolve (c.intern s₁).1 = some s₁ := intern_resolve c s₁
  have h2 : ((c.intern s₁).2.intern s₂).2.resolve ((c.intern s₁).2.intern s₂).1 =
      some s₂ := intern_resolve (c.intern s₁).2 s₂
  have hlt : (c.intern s₁).1 < (c.intern s₁).2.strings.length := by
    rw [← resolve_isSome]
    rw [h1]
    rfl
  have h3 : ((c.intern s₁).2.intern s₂).2.resolve (c.intern s₁).1 = some s₁ := by
    rw [intern_stable (c.intern s₁).2 s₂ hlt]
    exact h1
  rw [heq, h3] at h2
  exact hne (Option.some.injEq _ _ ▸ h2)

theorem intern_dense_stable_injective_witness :
    ((0 : Nat) < (⟨["x"]⟩ : StringCache).strings.length ∧
      ((⟨["x"]⟩ : StringCache).intern "y").2.resolve 0 =
        (⟨["x"]⟩ : StringCache).resolve 0) ∧
    (("a" : String) ≠ "b" ∧
      ((StringCache.empty.intern "a").2.intern "b").1 ≠
        (StringCache.empty.intern "a").1) := by
  refine ⟨⟨by decide, ?_⟩, by decide, ?_⟩
  · exact intern_dense_stable_injective.2.1 ⟨["x"]⟩ "y" 0 (by decide)
  · exact intern_dense_stable_injective.2.2.2 StringCache.empty "a" "b" (by decide)

/-- C6, counterexample: the invariant fails in a reachable state once the
`u32` wraps: one `add_pair(0, 1)` followed by `2^32 - 1` calls of
`add_pair(1, 0)` leaves author 0's entry for author 1 with `as_driver = 1`
and `total = 0`. -/
theorem applyPairs_overflow_counterexample :
    (AuthorCounts.applyPairs ((0, 1) :: List.replicate (2^32 - 1) (1, 0))
        0 1).as_driver = 1 ∧
    (AuthorCounts.applyPairs ((0, 1) :: List.replicate (2^32 - 1) (1, 0))
        0 1).total = 0 ∧
    ¬ ((AuthorCounts.applyPairs ((0, 1) :: List.replicate (2^32 - 1) (1, 0))
          0 1).as_driver ≤
        (AuthorCounts.applyPairs ((0, 1) :: List.replicate (2^32 - 1) (1, 0))
          0 1).total) := by
  have key : AuthorCounts.applyPairs ((0, 1) :: List.replicate (2^32 - 1) (1, 0))
      0 1 =
      ⟨(AuthorCounts.empty.add_pair 0 1 0 1).as_driver,
        ((AuthorCounts.empty.add_pair 0 1 0 1).total + (2^32 - 1)) % 2^32⟩ := by
    unfold AuthorCounts.applyPairs
    rw [List.foldl_cons]
    show ((List.replicate (2^32 - 1) ((1 : Nat), (0 : Nat))).foldl
        (fun c p => c.add_pair p.1 p.2) (AuthorCounts.empty.add_pair 0 1)) 0 1 = _
    exact foldl_replicate_nav (2^32 - 1) (AuthorCounts.empty.add_pair 0 1)
      (by decide)
  rw [key]
  refine ⟨by decide, by decide, by decide⟩

/-- C6, amended: in every aggregate reachable from the empty state by fewer
than `2^32` `add_pair` calls — so that no `u32` count can wrap — every entry
satisfies `as_driver ≤ total`. -/
theorem applyPairs_bounded_invariant : ∀ (ps : List (Nat × Nat)),
    ps.length < 2^32 → ∀ a b,
    (AuthorCounts.applyPairs ps a b).as_driver ≤
      (AuthorCounts.applyPairs ps a b).total := by
  intro ps hps a b
  unfold AuthorCounts.applyPairs
  exact foldl_add_pair_inv_bounded ps AuthorCounts.empty 0
    (fun x y => ⟨Nat.le.refl, Nat.le.refl⟩) (by omega) a b

theorem applyPairs_bounded_invariant_witness :
    (([((0 : Nat), (1 : Nat)), (1, 0), (0, 1)] : List (Nat × Nat)).length
        < 2^32) ∧
    (AuthorCounts.applyPairs [(0, 1), (1, 0), (0, 1)] 0 1).as_driver ≤
      (AuthorCounts.applyPairs [(0, 1), (1, 0), (0, 1)] 0 1).total :=
  ⟨by decide,
    applyPairs_bounded_invariant [(0, 1), (1, 0), (0, 1)] (by decide) 0 1⟩

/-! ### Helper lemmas: normalizer -/

theorem first_rule_eq (rules : List (String × String)) (name : String) :
    ((rules.filterMap (fun ft => if name = ft.1 then some ft.2 else none)).head?).getD
        name =
      ((rules.find? (fun ft => name = ft.1)).map Prod.snd).getD name := by
  induction rules with
  | nil => rfl
  | cons r rs ih =>
    by_cases h : name = r.1
    · simp [List.filterMap_cons, h]
    · have hd : (decide (name = r.1)) = false := by simp [h]
      simp only [List.filterMap_cons, if_neg h, List.find?_cons, hd]
      exact ih

/-- C9: `normalize` applies at most the first byte-for-byte matching
replacement rule to the raw input (no re-checking of the result), then folds
the fixed diacritic table; `"Müller"` folds to `"Mueller"` with an empty rule
list; with no matching rule and no foldable character the input is returned
unchanged. -/
theorem normalize_spec :
    (∀ (rules : List (String × String)) (name : String),
        normalize_author_name rules name =
          replace_umlauts
            (((rules.find? (fun ft => name = ft.1)).map Prod.snd).getD name)) ∧
    normalize_author_name [] "Müller" = "Mueller" ∧
    (∀ (rules : List (String × String)) (name : String),
        (∀ ft ∈ rules, ft.1 ≠ name) → (∀ c ∈ name.data, umlautFold c = none) →
        normalize_author_name rules name = name) := by
  refine ⟨?_, by decide, ?_⟩
  · intro rules name
    simp only [normalize_author_name]
    exact congrArg replace_umlauts (first_rule_eq rules name)
  · intro rules name h1 h2
    have hfm : rules.filterMap (fun ft => if name = ft.1 then some ft.2 else none)
        = [] := by
      rw [List.filterMap_eq_nil_iff]
      intro ft hft
      rw [if_neg (fun hc => (h1 ft hft) hc.symm)]
    have hany : name.data.any (fun c => (umlautFold c).isSome) = false := by
      rw [List.any_eq_false]
      intro c hc
      rw [h2 c hc]
      exact Bool.false_ne_true
    simp only [normalize_author_name, hfm, List.head?_nil, Option.getD_none,
      replace_umlauts, hany, Bool.false_eq_true, if_false]

theorem normalize_spec_witness :
    ((∀ ft ∈ [("a", "b")], (ft : String × String).1 ≠ "Smith") ∧
      (∀ c ∈ "Smith".data, umlautFold c = none)) ∧
    normalize_author_name [("a", "b")] "Smith" = "Smith" :=
  ⟨⟨by decide, by decide⟩,
    normalize_spec.2.2 [("a", "b")] "Smith" (by decide) (by decide)⟩

/-! ### Helper lemmas: parser error kinds -/

theorem tagNoCase_err : ∀ (t i : List Char) {k : NomKind},
    tagNoCase t i = .error k → k = .tag := by
  intro t
  induction t with
  | nil => intro i k h; exact Except.noConfusion h
  | cons c t ih =>
    intro i k h
    cases i with
    | nil =>
      simp only [tagNoCase] at h
      injection h with h2
      exact h2.symm
    | cons d i2 =>
      simp only [tagNoCase] at h
      split at h
      · exact ih i2 h
      · injection h with h2
        exact h2.symm

theorem once_err {i : List Char} {k : NomKind}
    (h : co_authored_by_once i = .error k) : k = .tag := by
  unfold co_authored_by_once at h
  split at h
  · exact Except.noConfusion h
  · rename_i k2 ht
    injection h with h2
    exact h2 ▸ tagNoCase_err _ _ ht

theorem co_authored_by_err {i : List Char} {k : NomKind}
    (h : co_authored_by i = .error k) : k = .tag := by
  unfold co_authored_by at h
  split at h
  · exact Except.noConfusion h
  · rename_i k2 ht
    injection h with h2
    exact h2 ▸ once_err ht

theorem takeUntilLt_err {i : List Char} {k : NomKind}
    (h : takeUntilLt i = .error k) : k = .takeUntil := by
  unfold takeUntilLt at h
  split at h
  · exact Except.noConfusion h
  · injection h with h2
    exact h2.symm

theorem co_author_name_err {i : List Char} {k : NomKind}
    (h : co_author_name i = .error k) :
    k = .tag ∨ k = .takeUntil ∨ k = .verify := by
  unfold co_author_name at h
  split at h
  · rename_i k2 ht
    injection h with h2
    exact Or.inl (h2 ▸ co_authored_by_err ht)
  · split at h
    · rename_i k2 ht
      injection h with h2
      exact Or.inr (Or.inl (h2 ▸ takeUntilLt_err ht))
    · split at h
      · injection h with h2
        exact Or.inr (Or.inr h2.symm)
      · exact Except.noConfusion h

theorem co_author_mail_never_err (i : List Char) (k : NomKind) :
    co_author_mail i ≠ .error k := by
  intro h
  unfold co_author_mail at h
  split at h
  · exact Except.noConfusion h
  · exact Except.noConfusion h

theorem co_author_err {i : List Char} {k : NomKind}
    (h : co_author i = .error k) :
    k = .tag ∨ k = .takeUntil ∨ k = .verify := by
  unfold co_author at h
  split at h
  · rename_i k2 ht
    injection h with h2
    exact h2 ▸ co_author_name_err ht
  · split at h
    · rename_i k2 ht
      exact absurd ht (co_author_mail_never_err _ _)
    · exact Except.noConfusion h

/-- C10: `CoAuthor::try_from` is total with a three-error taxonomy; the
`unreachable!` branch of its error mapping is dead code, because the mail
sub-parser is wrapped in `opt` and only the key tag, the take-until, and the
name verification can surface a parse error. -/
theorem tryFrom_total_no_crash : ∀ line : String,
    CoAuthor.tryFrom line ≠ .crash ∧
    ((∃ c, CoAuthor.tryFrom line = .ok c) ∨
      CoAuthor.tryFrom line = .err .MissingTrailerKey ∨
      CoAuthor.tryFrom line = .err .MissingName ∨
      CoAuthor.tryFrom line = .err .MissingMail) := by
  intro line
  cases h : co_author line.data with
  | ok v =>
    obtain ⟨r, nm, ml⟩ := v
    refine ⟨?_, Or.inl ⟨⟨⟨nm⟩, ml.map (fun m => ⟨m⟩)⟩, ?_⟩⟩ <;>
      simp [CoAuthor.tryFrom, tryFromOfResult, h]
  | error k =>
    rcases co_author_err h with h2 | h2 | h2 <;> subst h2 <;>
      simp [CoAuthor.tryFrom, tryFromOfResult, h]

/-- C8: the parser distinguishes its soft failures: a line whose key never
matches is `MissingTrailerKey`, a line with a valid key whose name trims to
empty is the distinct `MissingName`, and neither is a crash. -/
theorem error_taxonomy :
    (∀ line : String, pok (co_authored_by line.data) = false →
        CoAuthor.tryFrom line = .err .MissingTrailerKey) ∧
    (∀ (line : String) (r : List Char), co_authored_by line.data = .ok (r, ()) →
        ('<') ∈ r → trimChars (r.takeWhile (fun c => c ≠ '<')) = [] →
        CoAuthor.tryFrom line = .err .MissingName) ∧
    CoAuthor.tryFrom "Some other content" = .err .MissingTrailerKey ∧
    CoAuthor.tryFrom "Co-Authored-By: <alice@wonderland.org>" = .err .MissingName ∧
    CoAuthorError.MissingTrailerKey ≠ CoAuthorError.MissingName := by
  refine ⟨?_, ?_, by decide, by decide, by decide⟩
  · intro line h
    cases hc : co_authored_by line.data with
    | ok v =>
      rw [hc] at h
      simp [pok] at h
    | error k =>
      have hk : k = .tag := co_authored_by_err hc
      subst hk
      have hn : co_author_name line.data = .error .tag := by
        unfold co_author_name
        rw [hc]
      have hco : co_author line.data = .error .tag := by
        unfold co_author
        rw [hn]
      simp [CoAuthor.tryFrom, tryFromOfResult, hco]
  · intro line r hc hin htrim
    have ht : takeUntilLt r =
        .ok (r.dropWhile (fun c => c ≠ '<'), r.takeWhile (fun c => c ≠ '<')) := by
      unfold takeUntilLt
      rw [if_pos hin]
    have hname : co_author_name line.data = .error .verify := by
      simp only [co_author_name, hc, ht, htrim, List.isEmpty_nil, if_true]
    have hco : co_author line.data = .error .verify := by
      unfold co_author
      rw [hname]
    simp [CoAuthor.tryFrom, tryFromOfResult, hco]

theorem error_taxonomy_witness :
    (pok (co_authored_by "Alice is nice".data) = false ∧
      CoAuthor.tryFrom "Alice is nice" = .err .MissingTrailerKey) ∧
    (co_authored_by "co-authored-by: <a@b.c>".data = .ok ("<a@b.c>".data, ()) ∧
      ('<') ∈ "<a@b.c>".data ∧
      trimChars ("<a@b.c>".data.takeWhile (fun c => c ≠ '<')) = [] ∧
      CoAuthor.tryFrom "co-authored-by: <a@b.c>" = .err .MissingName) :=
  ⟨⟨by decide, error_taxonomy.1 _ (by decide)⟩,
    ⟨by decide, by decide, by decide,
      error_taxonomy.2.1 _ ("<a@b.c>".data) (by decide) (by decide) (by decide)⟩⟩

/-- C1, counterexample: a line with a valid key and a non-empty name but no
`<` at all is rejected with `MissingMail` (as the crate's own
`test_missing_mail` test asserts), not accepted with an absent mail. -/
theorem no_mail_counterexample :
    co_authored_by "Co-Authored-By: Alice".data = .ok ("Alice".data, ()) ∧
    ('<') ∉ "Alice".data ∧
    trimChars "Alice".data ≠ [] ∧
    CoAuthor.tryFrom "Co-Authored-By: Alice" = .err .MissingMail := by
  exact ⟨by decide, by decide, by decide, by decide⟩

/-- C1, amended: when the remainder after the key contains a `<` and the name
before it trims to non-empty, a malformed mail section yields success with an
absent mail; when the remainder contains no `<` at all, parsing fails with
`MissingMail`. -/
theorem name_without_mail_spec :
    (∀ (line : String) (r : List Char), co_authored_by line.data = .ok (r, ()) →
        ('<') ∈ r → trimChars (r.takeWhile (fun c => c ≠ '<')) ≠ [] →
        pok (co_author_mail_core (r.dropWhile (fun c => c ≠ '<'))) = false →
        CoAuthor.tryFrom line =
          .ok ⟨⟨trimChars (r.takeWhile (fun c => c ≠ '<'))⟩, none⟩) ∧
    (∀ (line : String) (r : List Char), co_authored_by line.data = .ok (r, ()) →
        ('<') ∉ r → CoAuthor.tryFrom line = .err .MissingMail) := by
  constructor
  · intro line r hc hin htrim hpok
    have ht : takeUntilLt r =
        .ok (r.dropWhile (fun c => c ≠ '<'), r.takeWhile (fun c => c ≠ '<')) := by
      unfold takeUntilLt
      rw [if_pos hin]
    have hne : (trimChars (r.takeWhile (fun c => c ≠ '<'))).isEmpty = false := by
      cases hl : trimChars (r.takeWhile (fun c => c ≠ '<')) with
      | nil => exact absurd hl htrim
      | cons a l => rfl
    have hname : co_author_name line.data =
        .ok (r.dropWhile (fun c => c ≠ '<'),
          trimChars (r.takeWhile (fun c => c ≠ '<'))) := by
      simp only [co_author_name, hc, ht, hne, Bool.false_eq_true, if_false]
    have hmail : co_author_mail (r.dropWhile (fun c => c ≠ '<')) =
        .ok (r.dropWhile (fun c => c ≠ '<'), none) := by
      unfold co_author_mail
      cases hm : co_author_mail_core (r.dropWhile (fun c => c ≠ '<')) with
      | ok v =>
        rw [hm] at hpok
        simp [pok] at hpok
      | error k => rfl
    have hco : co_author line.data =
        .ok (r.dropWhile (fun c => c ≠ '<'),
          (trimChars (r.takeWhile (fun c => c ≠ '<')), none)) := by
      simp only [co_author, hname, hmail]
    simp [CoAuthor.tryFrom, tryFromOfResult, hco]
  · intro line r hc hin
    have ht : takeUntilLt r = .error .takeUntil := by
      unfold takeUntilLt
      rw [if_neg hin]
    have hname : co_author_name line.data = .error .takeUntil := by
      simp only [co_author_name, hc, ht]
    have hco : co_author line.data = .error .takeUntil := by
      unfold co_author
      rw [hname]
    simp [CoAuthor.tryFrom, tryFromOfResult, hco]

theorem name_without_mail_witness :
    (pok (co_author_mail_core (("Alice <alice@wonderland.org".data).dropWhile
        (fun c => c ≠ '<'))) = false) ∧
    CoAuthor.tryFrom "Co-Authored-By: Alice <alice@wonderland.org" =
      .ok ⟨⟨trimChars (("Alice <alice@wonderland.org".data).takeWhile
        (fun c => c ≠ '<'))⟩, none⟩ :=
  ⟨by decide,
    name_without_mail_spec.1 _ ("Alice <alice@wonderland.org".data)
      (by decide) (by decide) (by decide) (by decide)⟩

/-! ### Helper lemmas: key stacking (`many1` over the trailer key) -/

theorem length_dropWhile_le_len (p : Char → Bool) (l : List Char) :
    (l.dropWhile p).length ≤ l.length :=
  (List.dropWhile_suffix p).sublist.length_le

theorem tagNoCase_ok_length : ∀ (t i r : List Char) (u : Unit),
    tagNoCase t i = .ok (r, u) → i.length = r.length + t.length := by
  intro t
  induction t with
  | nil =>
    intro i r u h
    simp only [tagNoCase, Except.ok.injEq, Prod.mk.injEq] at h
    rw [h.1]
    simp
  | cons c t ih =>
    intro i r u h
    cases i with
    | nil => exact Except.noConfusion h
    | cons d i2 =>
      simp only [tagNoCase] at h
      split at h
      · have h2 := ih i2 r u h
        simp only [List.length_cons, h2]
        omega
      · exact Except.noConfusion h

theorem keyChars_length : keyChars.length = 15 := by decide

theorem once_ok_shrink {i r : List Char} {u : Unit}
    (h : co_authored_by_once i = .ok (r, u)) : r.length < i.length := by
  unfold co_authored_by_once at h
  split at h
  · rename_i r0 u0 ht
    have hlen := tagNoCase_ok_length keyChars (space0 i) r0 u0 ht
    have hs0 : (space0 i).length ≤ i.length := length_dropWhile_le_len _ _
    have hs1 : (space0 r0).length ≤ r0.length := length_dropWhile_le_len _ _
    injection h with h2
    injection h2 with h3 h4
    rw [← h3]
    rw [keyChars_length] at hlen
    omega
  · exact Except.noConfusion h

theorem keyLoop_nil : ∀ f : Nat, keyLoop f [] = [] := by
  intro f
  cases f with
  | zero => rfl
  | succ f =>
    have h : co_authored_by_once [] = .error .tag := by decide
    simp [keyLoop, h]

theorem keyLoop_congr : ∀ (f g : Nat) (i : List Char),
    i.length ≤ f → i.length ≤ g → keyLoop f i = keyLoop g i := by
  intro f
  induction f with
  | zero =>
    intro g i hf hg
    have hi : i = [] := List.length_eq_zero.mp (Nat.le_zero.mp hf)
    subst hi
    rw [keyLoop_nil, keyLoop_nil]
  | succ f ih =>
    intro g i hf hg
    cases g with
    | zero =>
      have hi : i = [] := List.length_eq_zero.mp (Nat.le_zero.mp hg)
      subst hi
      rw [keyLoop_nil, keyLoop_nil]
    | succ g =>
      simp only [keyLoop]
      cases ho : co_authored_by_once i with
      | ok v =>
        obtain ⟨r, u⟩ := v
        have hr : r.length < i.length := once_ok_shrink ho
        exact ih g r (by omega) (by omega)
      | error k => rfl

theorem space0_append {ws x : List Char} (h : ∀ c ∈ ws, isHws c = true) :
    space0 (ws ++ x) = space0 x := by
  induction ws with
  | nil => rfl
  | cons c ws ih =>
    simp only [List.cons_append, space0, List.dropWhile_cons, h c (by simp)]
    exact ih (fun d hd => h d (by simp [hd]))

theorem space0_idem (i : List Char) : space0 (space0 i) = space0 i :=
  List.dropWhile_idempotent isHws i

theorem tagNoCase_exact : ∀ (t k rest : List Char),
    t.map Char.toLower = k.map Char.toLower →
    tagNoCase t (k ++ rest) = .ok (rest, ()) := by
  intro t
  induction t with
  | nil =>
    intro k rest h
    have hk : k = [] := by
      cases k with
      | nil => rfl
      | cons d k2 => exact List.noConfusion h
    subst hk
    rfl
  | cons c t ih =>
    intro k rest h
    cases k with
    | nil => exact List.noConfusion h
    | cons d k2 =>
      simp only [List.map_cons, List.cons.injEq] at h
      obtain ⟨h1, h2⟩ := h
      simp only [List.cons_append, tagNoCase, if_pos h1]
      exact ih k2 rest h2

theorem key_head_not_hws {k : List Char} (hk : k.map Char.toLower = keyChars) :
    ∃ c0 k2, k = c0 :: k2 ∧ isHws c0 = false := by
  cases k with
  | nil => exact absurd hk (by decide)
  | cons c0 k2 =>
    refine ⟨c0, k2, rfl, ?_⟩
    have hc : c0.toLower = 'c' := by
      have := congrArg List.head? hk
      simpa [keyChars] using this
    by_contra hbad
    have hh : isHws c0 = true := by
      cases hi : isHws c0 with
      | false => exact absurd hi hbad
      | true => rfl
    have : c0 = ' ' ∨ c0 = '\t' := by
      simpa [isHws, decide_eq_true_eq] using hh
    rcases this with h | h <;> subst h <;> exact absurd hc (by decide)

/-- Peeling one stacked key occurrence (with its surrounding horizontal
whitespace) off the front of a line that itself carries the key leaves the
result of `co_authored_by` unchanged: `many1` greedily consumes all stacked
keys either way. -/
theorem co_authored_by_peel (ws k line : List Char)
    (hws : ∀ c ∈ ws, isHws c = true) (hk : k.map Char.toLower = keyChars)
    (h : pok (co_authored_by line) = true) :
    co_authored_by (ws ++ (k ++ line)) = co_authored_by line := by
  cases htag : tagNoCase keyChars (space0 line) with
  | error k2 =>
    exfalso
    have h1 : co_authored_by_once line = .error k2 := by
      unfold co_authored_by_once
      rw [htag]
    have h2 : co_authored_by line = .error k2 := by
      unfold co_authored_by
      rw [h1]
    rw [h2] at h
    simp [pok] at h
  | ok v =>
    obtain ⟨r0, u0⟩ := v
    -- the one-key form
    have once_line : co_authored_by_once line = .ok (space0 r0, ()) := by
      unfold co_authored_by_once
      rw [htag]
    have hline : co_authored_by line =
        .ok (keyLoop (space0 r0).length (space0 r0), ()) := by
      unfold co_authored_by
      rw [once_line]
    -- the stacked form consumes `ws` and `k`, landing on `space0 line`
    obtain ⟨c0, k2, hk0, hc0⟩ := key_head_not_hws hk
    have e2 : space0 (k ++ line) = k ++ line := by
      subst hk0
      simp only [List.cons_append, space0, List.dropWhile_cons, hc0]
      rfl
    have e3 : tagNoCase keyChars (k ++ line) = .ok (line, ()) := by
      refine tagNoCase_exact keyChars k line ?_
      rw [hk]
      decide
    have once_stack : co_authored_by_once (ws ++ (k ++ line)) =
        .ok (space0 line, ()) := by
      unfold co_authored_by_once
      rw [space0_append hws, e2, e3]
    -- after the stacked key, the loop starts at `space0 line`, which again
    -- carries the key; one more step reaches `space0 r0`
    have once_m : co_authored_by_once (space0 line) = .ok (space0 r0, ()) := by
      unfold co_authored_by_once
      rw [space0_idem, htag]
    have hmlen := tagNoCase_ok_length keyChars (space0 line) r0 u0 htag
    rw [keyChars_length] at hmlen
    have hs1 : (space0 r0).length ≤ r0.length := length_dropWhile_le_len _ _
    obtain ⟨f, hf⟩ : ∃ f, (space0 line).length = f + 1 := ⟨r0.length + 14, by omega⟩
    have hstack : co_authored_by (ws ++ (k ++ line)) =
        .ok (keyLoop (space0 line).length (space0 line), ()) := by
      unfold co_authored_by
      rw [once_stack]
    rw [hstack, hline, hf]
    simp only [keyLoop, once_m]
    rw [keyLoop_congr f (space0 r0).length (space0 r0) (by omega) Nat.le.refl]

/-- C5: a line with the key stacked two or more times parses to exactly the
same result as the line with a single key occurrence; in particular the
spec's stacked example equals its single-key form. -/
theorem key_stacking :
    (∀ ws k line, (∀ c ∈ ws, isHws c = true) → k.map Char.toLower = keyChars →
        pok (co_authored_by line) = true →
        CoAuthor.tryFrom ⟨ws ++ (k ++ line)⟩ = CoAuthor.tryFrom ⟨line⟩) ∧
    CoAuthor.tryFrom "Co-authored-by: Co-authored-by: Alice <alice@wonderland.org>" =
      CoAuthor.tryFrom "Co-authored-by: Alice <alice@wonderland.org>" := by
  constructor
  · intro ws k line hws hk h
    have hca : co_author (ws ++ (k ++ line)) = co_author line := by
      unfold co_author co_author_name
      rw [co_authored_by_peel ws k line hws hk h]
    show tryFromOfResult (co_author (ws ++ (k ++ line))) =
      tryFromOfResult (co_author line)
    rw [hca]
  · decide

theorem key_stacking_witness :
    ((∀ c ∈ ([] : List Char), isHws c = true) ∧
      "Co-authored-by:".data.map Char.toLower = keyChars ∧
      pok (co_authored_by " Co-authored-by: Alice <alice@wonderland.org>".data)
        = true) ∧
    CoAuthor.tryFrom
        ⟨[] ++ ("Co-authored-by:".data ++
          " Co-authored-by: Alice <alice@wonderland.org>".data)⟩ =
      CoAuthor.tryFrom ⟨" Co-authored-by: Alice <alice@wonderland.org>".data⟩ :=
  ⟨⟨by decide, by decide, by decide⟩,
    key_stacking.1 [] ("Co-authored-by:".data)
      (" Co-authored-by: Alice <alice@wonderland.org>".data)
      (by decide) (by decide) (by decide)⟩

/-- C7: a commit message in which no line parses as a co-author trailer
yields the navigator sequence `[HAN_SOLO]`, so processing such a commit
records exactly one `(author, solo)` pairing; when at least one line parses,
the sentinel is not added; and the sentinel is interned up front into the
empty cache, receiving the very first id 0 (as in `Repo::open`). -/
theorem solo_sentinel :
    (∀ msg : String, (∀ l ∈ rustLines msg.data, get_co_author ⟨l⟩ = none) →
        get_navigators msg = [HAN_SOLO] ∧
        (∀ (rules : List (String × String)) (cache : StringCache)
            (counts : AuthorCounts) (an : String),
          process_commit rules cache counts an msg =
            ((author_id rules (author_id rules cache an).2 HAN_SOLO).2,
              counts.add_pair (author_id rules cache an).1
                (author_id rules (author_id rules cache an).2 HAN_SOLO).1))) ∧
    (∀ (msg : String) (l : List Char), l ∈ rustLines msg.data →
        (get_co_author ⟨l⟩).isSome = true →
        get_navigators msg =
          (rustLines msg.data).filterMap
            (fun l => (get_co_author ⟨l⟩).map CoAuthor.name)) ∧
    StringCache.empty.intern HAN_SOLO = (0, ⟨[HAN_SOLO]⟩) := by
  refine ⟨?_, ?_, by decide⟩
  · intro msg hall
    have hfm : (rustLines msg.data).filterMap
        (fun l => (get_co_author ⟨l⟩).map CoAuthor.name) = [] := by
      rw [List.filterMap_eq_nil_iff]
      intro l hl
      rw [hall l hl]
      rfl
    have hnav : get_navigators msg = [HAN_SOLO] := by
      simp [get_navigators, hfm]
    refine ⟨hnav, ?_⟩
    intro rules cache counts an
    simp only [process_commit, hnav, List.foldl_cons, List.foldl_nil]
  · intro msg l hl hsome
    obtain ⟨ca, hca⟩ := Option.isSome_iff_exists.mp hsome
    have hmem : ca.name ∈ (rustLines msg.data).filterMap
        (fun l => (get_co_author ⟨l⟩).map CoAuthor.name) :=
      List.mem_filterMap.mpr ⟨l, hl, by rw [hca]; rfl⟩
    have hne : (rustLines msg.data).filterMap
        (fun l => (get_co_author ⟨l⟩).map CoAuthor.name) ≠ [] :=
      List.ne_nil_of_mem hmem
    simp [get_navigators, hne]

theorem solo_sentinel_witness :
    ((∀ l ∈ rustLines "refactor the parser\nreviewed with care".data,
        get_co_author ⟨l⟩ = none) ∧
      get_navigators "refactor the parser\nreviewed with care" = [HAN_SOLO]) ∧
    ("Co-authored-by: Alice <a@b.c>".data ∈
        rustLines "fix\nCo-authored-by: Alice <a@b.c>".data ∧
      (get_co_author ⟨"Co-authored-by: Alice <a@b.c>".data⟩).isSome = true ∧
      get_navigators "fix\nCo-authored-by: Alice <a@b.c>" = ["Alice"]) :=
  ⟨⟨by decide, (solo_sentinel.1 _ (by decide)).1⟩,
    ⟨by decide, by decide,
      (solo_sentinel.2.1 "fix\nCo-authored-by: Alice <a@b.c>"
            ("Co-authored-by: Alice <a@b.c>".data) (by decide) (by decide)).trans
        (by decide)⟩⟩

end GitStats
